import Mathlib

/-
  Verification development for a finite-difference Black-Scholes option pricer.

  The repository contains two pricing routines:
  * an implicit-scheme pricer (functions compute_transition_probabilities,
    create_tridiagonal_matrix, initialize_option_matrix, backward_iteration,
    vanilla_option_implicit), and
  * an explicit-scheme pricer (a single function VanillaOption_Explicit).

  The embedding below models numpy float64 arithmetic by exact rational
  arithmetic; the transcendental function np.exp is modelled by an explicit
  function parameter rexp (all concrete evaluations below use r = 0, where
  every exp call in the source has argument 0 and np.exp returns exactly 1).
  Value grids are total functions on natural indices; the pricing routines
  only ever read indices inside the (N+1) x (M+1) array of the source.
-/

namespace FDM

/-- Failure values of a pricing call, modelling the Python exceptions that can
escape the source routines: ZeroDivisionError from the float divisions
S_max / M and T / N, numpy.linalg.LinAlgError from la.inv on a singular
matrix, and the error numpy raises from np.arange with a zero step, which
happens exactly when dS = 0 (that is, K = 0) while the terminal payoff row is
built.  For a negative dS (K < 0) np.arange counts downward and still yields
the M+1 values j*dS, so no error occurs there.  The constructor
invalidParameter appears in the specification's error model; no code path of
the repository produces it. -/
inductive FDMError where
  | invalidParameter
  | divisionByZero
  | numericalError
  | valueError
deriving DecidableEq

/-- Tridiagonal assembly np.diag(b) + np.diag(a[1:], k=-1) + np.diag(c[:-1], k=1):
entry (i, i) is b i, entry (i, i-1) is a i, entry (i, i+1) is c i. -/
def tridiag (a b c : ℕ → ℚ) : ℕ → ℕ → ℚ := fun i j =>
  if i = j then b i else if j + 1 = i then a i else if i + 1 = j then c i else 0

/-- Entry j of the product of a length-M row vector with an M x M matrix,
as computed by np.dot(v, A) for a 1-D (or row) first argument. -/
def rowDotMat (M : ℕ) (v : ℕ → ℚ) (Amat : ℕ → ℕ → ℚ) (j : ℕ) : ℚ :=
  ∑ m ∈ Finset.range M, v m * Amat m j

/-- Entry j of the matrix applied to a column vector, A·v, following the
wording of the specification ("A applied to the vector").  Kept separate from
rowDotMat so the two can be compared; they differ on non-symmetric matrices. -/
def spec_matVec (M : ℕ) (Amat : ℕ → ℕ → ℚ) (v : ℕ → ℚ) (j : ℕ) : ℚ :=
  ∑ m ∈ Finset.range M, Amat j m * v m

/-- Determinant of the leading n x n block, by Laplace expansion along row 0. -/
def detN : ℕ → (ℕ → ℕ → ℚ) → ℚ
  | 0, _ => 1
  | n + 1, A =>
      ∑ j ∈ Finset.range (n + 1),
        (-1 : ℚ) ^ j * A 0 j * detN n (fun r s => A (r + 1) (if s < j then s else s + 1))

/-- Entry (i, j) of the inverse of the leading n x n block, via the adjugate:
cofactor (j, i) divided by the determinant.  Models numpy.linalg.inv, which
raises on a singular input (captured by the determinant guard in the caller). -/
def matInv (n : ℕ) (A : ℕ → ℕ → ℚ) (i j : ℕ) : ℚ :=
  (-1 : ℚ) ^ (i + j) *
      detN (n - 1) (fun r s => A (if r < j then r else r + 1) (if s < i then s else s + 1)) /
    detN n A

/-- Maximum absolute row sum of the leading M x M block: la.norm(A, np.inf). -/
def infNorm (M : ℕ) (Amat : ℕ → ℕ → ℚ) : ℚ :=
  ((List.range M).map (fun i => ∑ j ∈ Finset.range M, |Amat i j|)).foldr max 0

/-- Entry j of the exercise vector built in the American branch of both
schemes: np.arange(0, M+1) * dS - K for a call, K - np.arange(0, M+1) * dS for
a put.  Note the source does not floor this at zero. -/
def intrinsic_raw (dS K : ℚ) (is_call : Bool) (j : ℕ) : ℚ :=
  if is_call then (j : ℚ) * dS - K else K - (j : ℚ) * dS

/-- Intrinsic value in the sense of the specification: the payoff floored at
zero, max(j·dS - K, 0) for a call and max(K - j·dS, 0) for a put. -/
def spec_intrinsic (dS K : ℚ) (is_call : Bool) (j : ℕ) : ℚ :=
  max (intrinsic_raw dS K is_call j) 0

/-- Value grid right after the boundary and terminal assignments.  Both source
files build the same grid (the implicit file in initialize_option_matrix, the
explicit file inline): column 0 and column M are set first and the terminal
row N is assigned last, so row N holds the payoff at every column, including
columns 0 and M.  rexp models np.exp. -/
def initialize_option_matrix (N M : ℕ) (S_max dS K r dt : ℚ) (rexp : ℚ → ℚ)
    (is_call : Bool) : ℕ → ℕ → ℚ := fun i j =>
  if is_call then
    if i = N then max ((j : ℚ) * dS - K) 0
    else if j = 0 then 0
    else if j = M then S_max * rexp (-(r * ((N : ℚ) - (i : ℚ)) * dt))
    else 0
  else
    if i = N then max (K - (j : ℚ) * dS) 0
    else if j = 0 then K * rexp (-(r * ((N : ℚ) - (i : ℚ)) * dt))
    else if j = M then 0
    else 0

/-- Row value written at one backward time step.  Columns 0..M-1 receive the
scheme's row formula rowF applied to row i+1; columns from M on keep their
previous value.  In the American case all columns 0..M are then clipped
against the raw exercise vector, exactly as the source lines
FV[i, :M] = ... followed by FV[i, :] = np.maximum(..., FV[i, :]). -/
def step_val (M : ℕ) (isAm : Bool) (raw : ℕ → ℚ) (rowF : (ℕ → ℚ) → ℕ → ℚ)
    (gNext : ℕ → ℚ) (self : ℚ) (j : ℕ) : ℚ :=
  if isAm = true ∧ j ≤ M then max (raw j) (if j < M then rowF gNext j else self)
  else if j < M then rowF gNext j else self

/-- One iteration of the backward loop: row i is rewritten from row i+1, all
other rows are untouched. -/
def fdm_step (M : ℕ) (isAm : Bool) (raw : ℕ → ℚ) (rowF : (ℕ → ℚ) → ℕ → ℚ)
    (g : ℕ → ℕ → ℚ) (i : ℕ) : ℕ → ℕ → ℚ := fun i2 j =>
  if i2 = i then step_val M isAm raw rowF (g (i + 1)) (g i2 j) j else g i2 j

/-- Backward induction loop: for i in range(N-1, -1, -1), executed here as
steps at time indices n-1, n-2, ..., 0. -/
def fdm_loop (M : ℕ) (isAm : Bool) (raw : ℕ → ℚ) (rowF : (ℕ → ℚ) → ℕ → ℚ) :
    ℕ → (ℕ → ℕ → ℚ) → ℕ → ℕ → ℚ
  | 0, g => g
  | n + 1, g => fdm_loop M isAm raw rowF n (fdm_step M isAm raw rowF g n)

/-- Coefficient a of compute_transition_probabilities in the implicit file:
0.5*(r-q)*j*dt - 0.5*sigma**2*j**2*dt. -/
def compute_a (dt r q sigma : ℚ) (j : ℕ) : ℚ :=
  1 / 2 * (r - q) * (j : ℚ) * dt - 1 / 2 * sigma ^ 2 * (j : ℚ) ^ 2 * dt

/-- Coefficient b of compute_transition_probabilities in the implicit file:
1.0 + sigma**2*j**2*dt + r*dt. -/
def compute_b (dt r q sigma : ℚ) (j : ℕ) : ℚ :=
  1 + sigma ^ 2 * (j : ℚ) ^ 2 * dt + r * dt

/-- Coefficient c of compute_transition_probabilities in the implicit file:
-0.5*(r-q)*j*dt - 0.5*sigma**2*j**2*dt. -/
def compute_c (dt r q sigma : ℚ) (j : ℕ) : ℚ :=
  -(1 / 2 * (r - q) * (j : ℚ) * dt) - 1 / 2 * sigma ^ 2 * (j : ℚ) ^ 2 * dt

/-- Correction vector of the implicit backward_iteration:
k_i[0] = -a[0]*FV[i+1, 0] and k_i[M-1] = -c[M-1]*FV[i+1, M]; the second
assignment is executed after the first, so it wins when M = 1. -/
def k_implicit (M : ℕ) (a c : ℕ → ℚ) (rowNext : ℕ → ℚ) (m : ℕ) : ℚ :=
  if m = M - 1 then -c (M - 1) * rowNext M
  else if m = 0 then -a 0 * rowNext 0
  else 0

/-- Row formula of the implicit scheme, the source line
FV[i, :M] = np.dot(FV[i+1, :M] + k_i, B): the updated vector is the row
vector FV[i+1, :M] + k_i multiplied on the right by B. -/
def implicit_row (M : ℕ) (a c : ℕ → ℚ) (B : ℕ → ℕ → ℚ) (rowNext : ℕ → ℚ)
    (j : ℕ) : ℚ :=
  rowDotMat M (fun m => rowNext m + k_implicit M a c rowNext m) B j

/-- Correction vector of the explicit scheme: k_i[0] = a[0]*FV[i+1, 0] and
k_i[M-1] = c[M-1]*FV[i+1, M] (opposite sign convention to the implicit file). -/
def k_explicit (M : ℕ) (a c : ℕ → ℚ) (rowNext : ℕ → ℚ) (m : ℕ) : ℚ :=
  if m = M - 1 then c (M - 1) * rowNext M
  else if m = 0 then a 0 * rowNext 0
  else 0

/-- Row formula of the explicit scheme, the source line
FV[i, 0:M] = np.dot(FV[i+1, 0:M], A) + k_i: the row vector FV[i+1, 0:M]
multiplied on the right by A, plus the correction vector. -/
def explicit_row (M : ℕ) (a c : ℕ → ℚ) (Amat : ℕ → ℕ → ℚ) (rowNext : ℕ → ℚ)
    (j : ℕ) : ℚ :=
  rowDotMat M rowNext Amat j + k_explicit M a c rowNext j

/-- Coefficient a of the explicit file (line a=(-0.5*(r-q)*dt*j+0.5*sigma**2*dt*j**2)/(1.0+r*dt)). -/
def a_explicit (dt r q sigma : ℚ) (j : ℕ) : ℚ :=
  (-(1 / 2 * (r - q) * dt * (j : ℚ)) + 1 / 2 * sigma ^ 2 * dt * (j : ℚ) ^ 2) / (1 + r * dt)

/-- Coefficient b of the explicit file (line b=(1.0-sigma**2*dt*j**2)/(1.0+r*dt)). -/
def b_explicit (dt r q sigma : ℚ) (j : ℕ) : ℚ :=
  (1 - sigma ^ 2 * dt * (j : ℚ) ^ 2) / (1 + r * dt)

/-- Coefficient c of the explicit file (line c=(0.5*(r-q)*dt*j+0.5*sigma**2*dt*j**2)/(1.0+r*dt)). -/
def c_explicit (dt r q sigma : ℚ) (j : ℕ) : ℚ :=
  (1 / 2 * (r - q) * dt * (j : ℚ) + 1 / 2 * sigma ^ 2 * dt * (j : ℚ) ^ 2) / (1 + r * dt)

/-- Tridiagonal matrix of the implicit pricer, built from
compute_transition_probabilities with dt = T/N. -/
def implicit_matrix (T r q sigma : ℚ) (N : ℕ) : ℕ → ℕ → ℚ :=
  tridiag (compute_a (T / (N : ℚ)) r q sigma) (compute_b (T / (N : ℚ)) r q sigma)
    (compute_c (T / (N : ℚ)) r q sigma)

/-- Tridiagonal matrix A of the explicit pricer. -/
def explicit_matrix (T r q sigma : ℚ) (N : ℕ) : ℕ → ℕ → ℚ :=
  tridiag (a_explicit (T / (N : ℚ)) r q sigma) (b_explicit (T / (N : ℚ)) r q sigma)
    (c_explicit (T / (N : ℚ)) r q sigma)

/-- The backward_iteration function of the implicit file, acting on an
initialized value grid with the inverse matrix B and coefficient vectors a, c. -/
def backward_iteration (B : ℕ → ℕ → ℚ) (a c : ℕ → ℚ) (N M : ℕ) (dS K : ℚ)
    (is_call is_american : Bool) (FV : ℕ → ℕ → ℚ) : ℕ → ℕ → ℚ :=
  fdm_loop M is_american (intrinsic_raw dS K is_call) (implicit_row M a c B) N FV

/-- Value grid produced by vanilla_option_implicit after initialization and
backward iteration, with S_max = 2K, dS = S_max/M, dt = T/N and B = inv(A). -/
def implicit_grid (T K r q sigma : ℚ) (N M : ℕ) (rexp : ℚ → ℚ)
    (is_call is_american : Bool) : ℕ → ℕ → ℚ :=
  backward_iteration (matInv M (implicit_matrix T r q sigma N))
    (compute_a (T / (N : ℚ)) r q sigma) (compute_c (T / (N : ℚ)) r q sigma) N M
    (2 * K / (M : ℚ)) K is_call is_american
    (initialize_option_matrix N M (2 * K) (2 * K / (M : ℚ)) K r (T / (N : ℚ)) rexp is_call)

/-- Value grid produced by VanillaOption_Explicit after its inline
initialization and backward loop. -/
def explicit_grid (T K r q sigma : ℚ) (N M : ℕ) (rexp : ℚ → ℚ)
    (is_call is_american : Bool) : ℕ → ℕ → ℚ :=
  fdm_loop M is_american (intrinsic_raw (2 * K / (M : ℚ)) K is_call)
    (explicit_row M (a_explicit (T / (N : ℚ)) r q sigma) (c_explicit (T / (N : ℚ)) r q sigma)
      (explicit_matrix T r q sigma N)) N
    (initialize_option_matrix N M (2 * K) (2 * K / (M : ℚ)) K r (T / (N : ℚ)) rexp is_call)

/-- Entry point of the implicit file.  The guards mirror the exceptions the
Python code can raise, in source order: ZeroDivisionError from dS = S_max/M
and dt = T/N, then LinAlgError from la.inv on a singular matrix (the
inversion happens in create_tridiagonal_matrix, before the grid is built),
then the zero-step np.arange error from initialize_option_matrix when
dS = 2K/M = 0.  On success it returns (FV[0, M // 2], infinity norm of B).
S_0 is accepted and unused, exactly as in the source. -/
def vanilla_option_implicit (S_0 T K r q sigma : ℚ) (N M : ℕ) (rexp : ℚ → ℚ)
    (is_call is_american : Bool) : Except FDMError (ℚ × ℚ) :=
  if M = 0 then .error .divisionByZero
  else if N = 0 then .error .divisionByZero
  else if detN M (implicit_matrix T r q sigma N) = 0 then .error .numericalError
  else if 2 * K / (M : ℚ) = 0 then .error .valueError
  else
    .ok (implicit_grid T K r q sigma N M rexp is_call is_american 0 (M / 2),
      infNorm M (matInv M (implicit_matrix T r q sigma N)))

/-- Entry point of the explicit file.  The exceptions its Python code can
raise are the two ZeroDivisionErrors from dS and dt, then the zero-step
np.arange error while the terminal payoff row is built when dS = 2K/M = 0;
there is no inversion.  On success it returns (FV[0, (M+2) / 2], infinity
norm of A): the extraction index is FV.shape[1] + 1 = M + 2 halved with
integer division. -/
def VanillaOption_Explicit (S_0 T K r q sigma : ℚ) (N M : ℕ) (rexp : ℚ → ℚ)
    (isCall isAmerican : Bool) : Except FDMError (ℚ × ℚ) :=
  if M = 0 then .error .divisionByZero
  else if N = 0 then .error .divisionByZero
  else if 2 * K / (M : ℚ) = 0 then .error .valueError
  else
    .ok (explicit_grid T K r q sigma N M rexp isCall isAmerican 0 ((M + 2) / 2),
      infNorm M (explicit_matrix T r q sigma N))

/-- Fair value component of a pricing result; 0 for a failed call. -/
def fairOf (e : Except FDMError (ℚ × ℚ)) : ℚ :=
  match e with
  | .ok p => p.1
  | .error _ => 0

/-- Frame property of the backward loop: a loop of n steps writes only rows
below n, so every row with index at least n keeps its incoming value. -/
theorem fdm_loop_high (M : ℕ) (isAm : Bool) (raw : ℕ → ℚ) (rowF : (ℕ → ℚ) → ℕ → ℚ) :
    ∀ (n : ℕ) (g : ℕ → ℕ → ℚ) (i j : ℕ), n ≤ i →
      fdm_loop M isAm raw rowF n g i j = g i j := by
  intro n
  induction n with
  | zero => intro g i j _; rfl
  | succ n ih =>
      intro g i j hni
      have h1 : n ≤ i := Nat.le_of_succ_le hni
      have h2 : i ≠ n := by omega
      calc fdm_loop M isAm raw rowF (n + 1) g i j
          = fdm_loop M isAm raw rowF n (fdm_step M isAm raw rowF g n) i j := rfl
        _ = fdm_step M isAm raw rowF g n i j := ih _ i j h1
        _ = g i j := by simp [fdm_step, h2]

/-- Unrolling property of the backward loop: in the final grid, every row i
below the step count is the step value computed from the final row i+1
(which was written by the immediately preceding iteration) and from the
incoming value of row i itself (read only at columns from M on). -/
theorem fdm_loop_row (M : ℕ) (isAm : Bool) (raw : ℕ → ℚ) (rowF : (ℕ → ℚ) → ℕ → ℚ) :
    ∀ (n : ℕ) (g : ℕ → ℕ → ℚ) (i j : ℕ), i < n →
      fdm_loop M isAm raw rowF n g i j =
        step_val M isAm raw rowF (fun m => fdm_loop M isAm raw rowF n g (i + 1) m)
          (g i j) j := by
  intro n
  induction n with
  | zero => intro g i j h; exact absurd h (Nat.not_lt_zero i)
  | succ n ih =>
      intro g i j hin
      by_cases hi : i < n
      · have hne : i ≠ n := by omega
        have hstep : fdm_loop M isAm raw rowF (n + 1) g =
            fdm_loop M isAm raw rowF n (fdm_step M isAm raw rowF g n) := rfl
        rw [hstep, ih _ i j hi]
        congr 1
        simp [fdm_step, hne]
      · have hieq : i = n := by omega
        subst hieq
        have hL : fdm_loop M isAm raw rowF (i + 1) g i j =
            step_val M isAm raw rowF (g (i + 1)) (g i j) j := by
          calc fdm_loop M isAm raw rowF (i + 1) g i j
              = fdm_loop M isAm raw rowF i (fdm_step M isAm raw rowF g i) i j := rfl
            _ = fdm_step M isAm raw rowF g i i j :=
                fdm_loop_high M isAm raw rowF i _ i j (le_refl i)
            _ = step_val M isAm raw rowF (g (i + 1)) (g i j) j := by simp [fdm_step]
        have hR : (fun m => fdm_loop M isAm raw rowF (i + 1) g (i + 1) m) = g (i + 1) := by
          funext m
          calc fdm_loop M isAm raw rowF (i + 1) g (i + 1) m
              = fdm_loop M isAm raw rowF i (fdm_step M isAm raw rowF g i) (i + 1) m := rfl
            _ = fdm_step M isAm raw rowF g i (i + 1) m :=
                fdm_loop_high M isAm raw rowF i _ (i + 1) m (Nat.le_succ i)
            _ = g (i + 1) m := by simp [fdm_step]
        rw [hR, hL]

/-- C1 (amended): once the error guards (M, N nonzero, nonzero grid spacing,
and, for the implicit scheme, the singularity guard) are passed, the implicit
entry point returns the value-grid entry at time row 0 and column M / 2,
while the explicit entry point returns the entry at time row 0 and column
M / 2 + 1: its source indexes column (FV.shape[1] + 1) / 2 = (M + 2) / 2 with
integer division, one to the right of the middle column. -/
theorem C1_extraction_columns (S_0 T K r q sigma : ℚ) (N M : ℕ) (rexp : ℚ → ℚ)
    (is_call is_american : Bool) (hN : N ≠ 0) (hM : M ≠ 0)
    (hdet : detN M (implicit_matrix T r q sigma N) ≠ 0)
    (hdS : 2 * K / (M : ℚ) ≠ 0) :
    fairOf (vanilla_option_implicit S_0 T K r q sigma N M rexp is_call is_american)
        = implicit_grid T K r q sigma N M rexp is_call is_american 0 (M / 2)
    ∧ fairOf (VanillaOption_Explicit S_0 T K r q sigma N M rexp is_call is_american)
        = explicit_grid T K r q sigma N M rexp is_call is_american 0 (M / 2 + 1) := by
  have hidx : (M + 2) / 2 = M / 2 + 1 := by omega
  constructor
  · simp [vanilla_option_implicit, hN, hM, hdet, hdS, fairOf]
  · simp [VanillaOption_Explicit, hN, hM, hdS, fairOf, hidx]

unseal Rat.add Rat.mul Rat.inv Rat.sub in
/-- Witness for C1 at S_0 = 1, T = 1, K = 1, r = 0, q = 0, sigma = 1, N = 1,
M = 2, European call. -/
theorem C1_extraction_columns_witness :
    (1 : ℕ) ≠ 0 ∧ (2 : ℕ) ≠ 0 ∧ detN 2 (implicit_matrix 1 0 0 1 1) ≠ 0 ∧
      2 * (1 : ℚ) / (2 : ℚ) ≠ 0 ∧
      fairOf (vanilla_option_implicit 1 1 1 0 0 1 1 2 (fun _ => 1) true false)
        = implicit_grid 1 1 0 0 1 1 2 (fun _ => 1) true false 0 (2 / 2) :=
  ⟨by decide, by decide, by decide, by decide,
    (C1_extraction_columns 1 1 1 0 0 1 1 2 (fun _ => 1) true false (by decide) (by decide)
      (by decide) (by decide)).1⟩

unseal Rat.add Rat.mul Rat.inv Rat.sub in
/-- C1 counterexample: at S_0 = 1, T = 2, K = 1, r = 0, q = 3, sigma = 1,
N = 2, M = 4 (European call, a valid input with M positive and even) the
explicit entry point does not return the grid entry at column M / 2 = 2. -/
theorem C1_counterexample :
    fairOf (VanillaOption_Explicit 1 2 1 0 3 1 2 4 (fun _ => 1) true false)
      ≠ explicit_grid 2 1 0 3 1 2 4 (fun _ => 1) true false 0 (4 / 2) := by decide

/-- C2 (amended): neither entry point validates its parameters, and no
InvalidParameter failure is ever produced, whatever the input: the failures
that do occur are the division errors at M = 0 or N = 0, the zero-step
np.arange error at K = 0, and, for the implicit scheme only, the
singular-matrix error; in particular at the invalid strike K = -1 both entry
points run the full grid computation and return a result (see the
counterexample). -/
theorem C2_no_parameter_validation (S_0 T K r q sigma : ℚ) (N M : ℕ) (rexp : ℚ → ℚ)
    (is_call is_american : Bool) :
    vanilla_option_implicit S_0 T K r q sigma N M rexp is_call is_american
        ≠ Except.error FDMError.invalidParameter
    ∧ VanillaOption_Explicit S_0 T K r q sigma N M rexp is_call is_american
        ≠ Except.error FDMError.invalidParameter := by
  constructor
  · unfold vanilla_option_implicit
    split_ifs <;> simp
  · unfold VanillaOption_Explicit
    split_ifs <;> simp

unseal Rat.add Rat.mul Rat.inv Rat.sub in
/-- C2 counterexample: at the invalid input K = -1 (T = 1, N = 1, M = 2) both
entry points run to completion and return a result instead of failing with
InvalidParameter. -/
theorem C2_counterexample :
    (VanillaOption_Explicit 1 1 (-1) 0 0 1 1 2 (fun _ => 1) true false).isOk = true
    ∧ (vanilla_option_implicit 1 1 (-1) 0 0 1 1 2 (fun _ => 1) true false).isOk = true :=
  ⟨by decide, by decide⟩

/-- C3 (amended): for a European contract both backward loops leave boundary
column M unchanged: every entry of column M of the final grid, at every time
row, equals the boundary value set at initialization.  Column 0, by
contrast, is rewritten at every step, because the induction writes columns
0..M-1 of the current row; see the counterexample. -/
theorem C3_column_M_invariant (T K r q sigma : ℚ) (N M : ℕ) (rexp : ℚ → ℚ)
    (is_call : Bool) (i : ℕ) :
    implicit_grid T K r q sigma N M rexp is_call false i M
        = initialize_option_matrix N M (2 * K) (2 * K / (M : ℚ)) K r (T / (N : ℚ)) rexp is_call i M
    ∧ explicit_grid T K r q sigma N M rexp is_call false i M
        = initialize_option_matrix N M (2 * K) (2 * K / (M : ℚ)) K r (T / (N : ℚ)) rexp is_call i M := by
  have key : ∀ (raw : ℕ → ℚ) (rowF : (ℕ → ℚ) → ℕ → ℚ) (g : ℕ → ℕ → ℚ),
      fdm_loop M false raw rowF N g i M = g i M := by
    intro raw rowF g
    by_cases hiN : i < N
    · rw [fdm_loop_row M false raw rowF N g i M hiN]
      simp [step_val]
    · exact fdm_loop_high M false raw rowF N g i M (Nat.le_of_not_lt hiN)
  exact ⟨key _ _ _, key _ _ _⟩

unseal Rat.add Rat.mul Rat.inv Rat.sub in
/-- C3 counterexample: at T = 3, K = 1, r = 0, q = 0, sigma = 1, N = 3, M = 4
(European call) the final grid differs from the initialized boundary in
column 0 at time row 0 (the computed value is 9/4, the boundary value is 0). -/
theorem C3_counterexample :
    explicit_grid 3 1 0 0 1 3 4 (fun _ => 1) true false 0 0
      ≠ initialize_option_matrix 3 4 (2 * 1) (2 * 1 / (4 : ℚ)) 1 0 (3 / (3 : ℚ))
          (fun _ => 1) true 0 0 := by decide

/-- C4 (amended): at every backward step both schemes apply the TRANSPOSED
operator, because np.dot(vector, matrix) multiplies the row vector on the
right: the explicit scheme sets FV[i, j] (j < M) to entry j of
FV[i+1, 0:M] times A plus k_i, and the implicit scheme sets it to entry j of
(FV[i+1, 0:M] + k_i) times B.  The specification's column form, A applied to
the vector, does not hold; see the counterexample. -/
theorem C4_transposed_step (T K r q sigma : ℚ) (N M : ℕ) (rexp : ℚ → ℚ)
    (is_call : Bool) (i j : ℕ) (hi : i < N) (hj : j < M) :
    explicit_grid T K r q sigma N M rexp is_call false i j
        = explicit_row M (a_explicit (T / (N : ℚ)) r q sigma)
            (c_explicit (T / (N : ℚ)) r q sigma) (explicit_matrix T r q sigma N)
            (fun m => explicit_grid T K r q sigma N M rexp is_call false (i + 1) m) j
    ∧ implicit_grid T K r q sigma N M rexp is_call false i j
        = implicit_row M (compute_a (T / (N : ℚ)) r q sigma)
            (compute_c (T / (N : ℚ)) r q sigma) (matInv M (implicit_matrix T r q sigma N))
            (fun m => implicit_grid T K r q sigma N M rexp is_call false (i + 1) m) j := by
  have key : ∀ (raw : ℕ → ℚ) (rowF : (ℕ → ℚ) → ℕ → ℚ) (g : ℕ → ℕ → ℚ),
      fdm_loop M false raw rowF N g i j
        = rowF (fun m => fdm_loop M false raw rowF N g (i + 1) m) j := by
    intro raw rowF g
    rw [fdm_loop_row M false raw rowF N g i j hi]
    simp [step_val, hj]
  exact ⟨key _ _ _, key _ _ _⟩

/-- Witness for C4 at T = 1, K = 1, r = 0, q = 0, sigma = 1, N = 1, M = 2
(European put), step i = 0, column j = 0. -/
theorem C4_transposed_step_witness :
    (0 : ℕ) < 1 ∧ (0 : ℕ) < 2 ∧
      explicit_grid 1 1 0 0 1 1 2 (fun _ => 1) false false 0 0
        = explicit_row 2 (a_explicit (1 / (1 : ℚ)) 0 0 1) (c_explicit (1 / (1 : ℚ)) 0 0 1)
            (explicit_matrix 1 0 0 1 1)
            (fun m => explicit_grid 1 1 0 0 1 1 2 (fun _ => 1) false false 1 m) 0 :=
  ⟨by decide, by decide,
    (C4_transposed_step 1 1 0 0 1 1 2 (fun _ => 1) false 0 0 (by decide) (by decide)).1⟩

unseal Rat.add Rat.mul Rat.inv Rat.sub in
/-- C4 counterexample: at T = 1, K = 1, r = 0, q = 0, sigma = 1, N = 1, M = 2
(European put), at step i = 0 and column j = 1 the grid entry written by the
code (0) differs from the specification's formula, entry 1 of A applied to
the column vector FV[1, 0:M] plus k_0 (which is 1/2). -/
theorem C4_counterexample :
    explicit_grid 1 1 0 0 1 1 2 (fun _ => 1) false false 0 1
      ≠ spec_matVec 2 (explicit_matrix 1 0 0 1 1)
          (fun m => explicit_grid 1 1 0 0 1 1 2 (fun _ => 1) false false 1 m) 1
        + k_explicit 2 (a_explicit (1 / (1 : ℚ)) 0 0 1) (c_explicit (1 / (1 : ℚ)) 0 0 1)
            (explicit_grid 1 1 0 0 1 1 2 (fun _ => 1) false false 1) 1 := by decide

/-- C5 (amended): for an American contract both schemes keep every entry of
the final grid at or above the RAW intrinsic value j·dS - K (call) or
K - j·dS (put), at every time row and every column of the grid.  The
specification's floored intrinsic max(payoff, 0) is NOT a lower bound,
because the source clips against the unfloored difference; see the
counterexample. -/
theorem C5_raw_intrinsic_floor (T K r q sigma : ℚ) (N M : ℕ) (rexp : ℚ → ℚ)
    (is_call : Bool) (i j : ℕ) (hi : i ≤ N) (hj : j ≤ M) :
    intrinsic_raw (2 * K / (M : ℚ)) K is_call j
        ≤ implicit_grid T K r q sigma N M rexp is_call true i j
    ∧ intrinsic_raw (2 * K / (M : ℚ)) K is_call j
        ≤ explicit_grid T K r q sigma N M rexp is_call true i j := by
  have hterm : intrinsic_raw (2 * K / (M : ℚ)) K is_call j
      ≤ initialize_option_matrix N M (2 * K) (2 * K / (M : ℚ)) K r (T / (N : ℚ)) rexp is_call N j := by
    cases is_call with
    | false =>
        simp only [initialize_option_matrix, intrinsic_raw, Bool.false_eq_true, if_false, if_pos rfl]
        exact le_max_left _ _
    | true =>
        simp only [initialize_option_matrix, intrinsic_raw, if_true, if_pos rfl]
        exact le_max_left _ _
  have key : ∀ (rowF : (ℕ → ℚ) → ℕ → ℚ),
      intrinsic_raw (2 * K / (M : ℚ)) K is_call j ≤
        fdm_loop M true (intrinsic_raw (2 * K / (M : ℚ)) K is_call) rowF N
          (initialize_option_matrix N M (2 * K) (2 * K / (M : ℚ)) K r (T / (N : ℚ)) rexp is_call)
          i j := by
    intro rowF
    by_cases hiN : i < N
    · rw [fdm_loop_row M true (intrinsic_raw (2 * K / (M : ℚ)) K is_call) rowF N
        (initialize_option_matrix N M (2 * K) (2 * K / (M : ℚ)) K r (T / (N : ℚ)) rexp is_call)
        i j hiN]
      simp only [step_val, hj, and_true, if_pos rfl, true_and, if_true]
      exact le_max_left _ _
    · have hieq : i = N := by omega
      rw [hieq, fdm_loop_high M true (intrinsic_raw (2 * K / (M : ℚ)) K is_call) rowF N
        (initialize_option_matrix N M (2 * K) (2 * K / (M : ℚ)) K r (T / (N : ℚ)) rexp is_call)
        N j le_rfl]
      exact hterm
  exact ⟨key _, key _⟩

unseal Rat.add Rat.mul Rat.inv Rat.sub in
/-- Witness for C5 at T = 1, K = 1, r = 0, q = 0, sigma = 1, N = 1, M = 2
(American call), entry (0, 1). -/
theorem C5_raw_intrinsic_floor_witness :
    (0 : ℕ) ≤ 1 ∧ (1 : ℕ) ≤ 2 ∧
      intrinsic_raw (2 * 1 / (2 : ℚ)) 1 true 1
        ≤ implicit_grid 1 1 0 0 1 1 2 (fun _ => 1) true true 0 1 :=
  ⟨by decide, by decide,
    (C5_raw_intrinsic_floor 1 1 0 0 1 1 2 (fun _ => 1) true 0 1 (by decide) (by decide)).1⟩

unseal Rat.add Rat.mul Rat.inv Rat.sub in
/-- C5 counterexample: at T = 2, K = 1, r = 0, q = -5/2, sigma = 1, N = 2,
M = 4 (American call, all parameters finite, M positive and even) the final
explicit grid holds -3/16 at entry (0, 1), strictly below the
specification's intrinsic value max(1·dS - K, 0) = 0. -/
theorem C5_counterexample :
    explicit_grid 2 1 0 (-5/2) 1 2 4 (fun _ => 1) true true 0 1
      < spec_intrinsic (2 * 1 / (4 : ℚ)) 1 true 1 := by decide

/-- C6 (confirmed): for every parameter set and every column j of the grid,
row N equals the exact discretized payoff max(j·dS - K, 0) for a call and
max(K - j·dS, 0) for a put, both immediately after initialization (the
terminal assignment overwrites the boundary columns, being executed last)
and in the final grid of either scheme (the loop never writes row N). -/
theorem C6_terminal_row_payoff (T K r q sigma : ℚ) (N M : ℕ) (rexp : ℚ → ℚ)
    (is_call is_american : Bool) (j : ℕ) (hj : j ≤ M) :
    initialize_option_matrix N M (2 * K) (2 * K / (M : ℚ)) K r (T / (N : ℚ)) rexp is_call N j
        = (if is_call then max ((j : ℚ) * (2 * K / (M : ℚ)) - K) 0
           else max (K - (j : ℚ) * (2 * K / (M : ℚ))) 0)
    ∧ implicit_grid T K r q sigma N M rexp is_call is_american N j
        = (if is_call then max ((j : ℚ) * (2 * K / (M : ℚ)) - K) 0
           else max (K - (j : ℚ) * (2 * K / (M : ℚ))) 0)
    ∧ explicit_grid T K r q sigma N M rexp is_call is_american N j
        = (if is_call then max ((j : ℚ) * (2 * K / (M : ℚ)) - K) 0
           else max (K - (j : ℚ) * (2 * K / (M : ℚ))) 0) := by
  have hinit : initialize_option_matrix N M (2 * K) (2 * K / (M : ℚ)) K r (T / (N : ℚ)) rexp is_call N j
      = (if is_call then max ((j : ℚ) * (2 * K / (M : ℚ)) - K) 0
         else max (K - (j : ℚ) * (2 * K / (M : ℚ))) 0) := by
    cases is_call <;> simp [initialize_option_matrix]
  refine ⟨hinit, ?_, ?_⟩
  · exact (fdm_loop_high M is_american (intrinsic_raw (2 * K / (M : ℚ)) K is_call)
      (implicit_row M (compute_a (T / (N : ℚ)) r q sigma) (compute_c (T / (N : ℚ)) r q sigma)
        (matInv M (implicit_matrix T r q sigma N))) N
      (initialize_option_matrix N M (2 * K) (2 * K / (M : ℚ)) K r (T / (N : ℚ)) rexp is_call)
      N j le_rfl).trans hinit
  · exact (fdm_loop_high M is_american (intrinsic_raw (2 * K / (M : ℚ)) K is_call)
      (explicit_row M (a_explicit (T / (N : ℚ)) r q sigma) (c_explicit (T / (N : ℚ)) r q sigma)
        (explicit_matrix T r q sigma N)) N
      (initialize_option_matrix N M (2 * K) (2 * K / (M : ℚ)) K r (T / (N : ℚ)) rexp is_call)
      N j le_rfl).trans hinit

unseal Rat.add Rat.mul Rat.inv Rat.sub in
/-- Witness for C6 at T = 1, K = 1, r = 0, q = 0, sigma = 1, N = 1, M = 2
(European call), column j = 1. -/
theorem C6_terminal_row_payoff_witness :
    (1 : ℕ) ≤ 2 ∧
      implicit_grid 1 1 0 0 1 1 2 (fun _ => 1) true false 1 1
        = (if true then max ((1 : ℚ) * (2 * 1 / (2 : ℚ)) - 1) 0
           else max (1 - (1 : ℚ) * (2 * 1 / (2 : ℚ))) 0) :=
  ⟨by decide,
    (C6_terminal_row_payoff 1 1 0 0 1 1 2 (fun _ => 1) true false 1 (by decide)).2.1⟩

/-- C7 (amended): the American exercise clip only raises values at the step
where it is applied: at every written row and interior column, the final
American grid entry dominates the unclipped scheme formula evaluated on its
own next row.  The original comparison, American fair value at least the
European fair value, fails; see the counterexample. -/
theorem C7_clip_only_raises (T K r q sigma : ℚ) (N M : ℕ) (rexp : ℚ → ℚ)
    (is_call : Bool) (i j : ℕ) (hi : i < N) (hj : j < M) :
    explicit_row M (a_explicit (T / (N : ℚ)) r q sigma) (c_explicit (T / (N : ℚ)) r q sigma)
        (explicit_matrix T r q sigma N)
        (fun m => explicit_grid T K r q sigma N M rexp is_call true (i + 1) m) j
      ≤ explicit_grid T K r q sigma N M rexp is_call true i j
    ∧ implicit_row M (compute_a (T / (N : ℚ)) r q sigma) (compute_c (T / (N : ℚ)) r q sigma)
        (matInv M (implicit_matrix T r q sigma N))
        (fun m => implicit_grid T K r q sigma N M rexp is_call true (i + 1) m) j
      ≤ implicit_grid T K r q sigma N M rexp is_call true i j := by
  have key : ∀ (rowF : (ℕ → ℚ) → ℕ → ℚ) (g : ℕ → ℕ → ℚ),
      rowF (fun m => fdm_loop M true (intrinsic_raw (2 * K / (M : ℚ)) K is_call) rowF N g (i + 1) m) j
        ≤ fdm_loop M true (intrinsic_raw (2 * K / (M : ℚ)) K is_call) rowF N g i j := by
    intro rowF g
    rw [fdm_loop_row M true (intrinsic_raw (2 * K / (M : ℚ)) K is_call) rowF N g i j hi]
    simp only [step_val, hj, if_true, Nat.le_of_lt hj, and_true, true_and, if_pos rfl]
    exact le_max_right _ _
  exact ⟨key _ _, key _ _⟩

unseal Rat.add Rat.mul Rat.inv Rat.sub in
/-- Witness for C7 at T = 1, K = 1, r = 0, q = 0, sigma = 1, N = 1, M = 2
(American call), step i = 0, column j = 1. -/
theorem C7_clip_only_raises_witness :
    (0 : ℕ) < 1 ∧ (1 : ℕ) < 2 ∧
      explicit_row 2 (a_explicit (1 / (1 : ℚ)) 0 0 1) (c_explicit (1 / (1 : ℚ)) 0 0 1)
          (explicit_matrix 1 0 0 1 1)
          (fun m => explicit_grid 1 1 0 0 1 1 2 (fun _ => 1) true true 1 m) 1
        ≤ explicit_grid 1 1 0 0 1 1 2 (fun _ => 1) true true 0 1 :=
  ⟨by decide, by decide,
    (C7_clip_only_raises 1 1 0 0 1 1 2 (fun _ => 1) true 0 1 (by decide) (by decide)).1⟩

unseal Rat.add Rat.mul Rat.inv Rat.sub in
/-- C7 counterexample: at S_0 = 1, T = 2, K = 1, r = 0, q = 3, sigma = 1,
N = 2, M = 4 (explicit scheme, call) the American fair value (1/2) is
strictly below the European fair value (55/2) with all other parameters
identical. -/
theorem C7_counterexample :
    fairOf (VanillaOption_Explicit 1 2 1 0 3 1 2 4 (fun _ => 1) true true)
      < fairOf (VanillaOption_Explicit 1 2 1 0 3 1 2 4 (fun _ => 1) true false) := by decide

set_option maxHeartbeats 1000000 in
/-- C8 (amended): the bound holds at initialization: with a positive strike,
M nonzero, a column index inside the grid and discount factors in [0, 1]
(as exp(-r(N-i)dt) is for r ≥ 0), every entry of the initialized grid lies
between 0 and S_max = 2K.  The fair value returned after the induction is
not bounded by S_max in general; see the counterexample. -/
theorem C8_initial_bounds (N M : ℕ) (T K r : ℚ) (rexp : ℚ → ℚ) (is_call : Bool)
    (i j : ℕ) (hK : 0 < K) (hM : M ≠ 0) (hj : j ≤ M)
    (h0 : ∀ x, 0 ≤ rexp x) (h1 : ∀ x, rexp x ≤ 1) :
    0 ≤ initialize_option_matrix N M (2 * K) (2 * K / (M : ℚ)) K r (T / (N : ℚ)) rexp is_call i j
    ∧ initialize_option_matrix N M (2 * K) (2 * K / (M : ℚ)) K r (T / (N : ℚ)) rexp is_call i j
        ≤ 2 * K := by
  have hMQ : (0 : ℚ) < (M : ℚ) := by exact_mod_cast Nat.pos_of_ne_zero hM
  have hdS : (0 : ℚ) ≤ 2 * K / (M : ℚ) := div_nonneg (by linarith) hMQ.le
  have hjM : ((j : ℚ)) ≤ (M : ℚ) := by exact_mod_cast hj
  have hMdS : (M : ℚ) * (2 * K / (M : ℚ)) = 2 * K := by field_simp
  have hjdS : (j : ℚ) * (2 * K / (M : ℚ)) ≤ 2 * K := by
    calc (j : ℚ) * (2 * K / (M : ℚ)) ≤ (M : ℚ) * (2 * K / (M : ℚ)) :=
          mul_le_mul_of_nonneg_right hjM hdS
      _ = 2 * K := hMdS
  have hjdS0 : 0 ≤ (j : ℚ) * (2 * K / (M : ℚ)) := mul_nonneg (Nat.cast_nonneg j) hdS
  have hrexp0 := h0 (-(r * ((N : ℚ) - (i : ℚ)) * (T / (N : ℚ))))
  have hrexp1 := h1 (-(r * ((N : ℚ) - (i : ℚ)) * (T / (N : ℚ))))
  unfold initialize_option_matrix
  split_ifs <;>
    refine ⟨?_, ?_⟩ <;>
    first
      | exact le_max_right _ _
      | exact max_le (by linarith) (by linarith)
      | exact mul_nonneg (by linarith) hrexp0
      | exact le_trans (mul_le_of_le_one_right (by linarith) hrexp1) (by linarith)
      | linarith

/-- Witness for C8 at N = 1, M = 2, T = 1, K = 1, r = 0, boundary entry
(0, 2) of the call grid. -/
theorem C8_initial_bounds_witness :
    (0 : ℚ) < 1 ∧ (2 : ℕ) ≠ 0 ∧ (2 : ℕ) ≤ 2 ∧
      0 ≤ initialize_option_matrix 1 2 (2 * 1) (2 * 1 / (2 : ℚ)) 1 0 (1 / (1 : ℚ))
            (fun _ => 1) true 0 2 :=
  ⟨by norm_num, by decide, by decide,
    (C8_initial_bounds 1 2 1 1 0 (fun _ => 1) true 0 2 (by norm_num) (by decide) (by decide)
      (fun x => by norm_num) (fun x => by norm_num)).1⟩

unseal Rat.add Rat.mul Rat.inv Rat.sub in
/-- C8 counterexample: at S_0 = 1, T = 2, K = 1, r = 0, q = 3, sigma = 1,
N = 2, M = 4 (explicit scheme, European call) the returned fair value 55/2
exceeds S_max = 2K = 2. -/
theorem C8_counterexample :
    2 * 1 < fairOf (VanillaOption_Explicit 1 2 1 0 3 1 2 4 (fun _ => 1) true false) := by decide

/-- C10 (confirmed): in both schemes the sub-diagonal coefficient at the
lowest index vanishes, a[0] = 0 (both its drift and diffusion terms carry a
factor j = 0), so for every next-row vector, that is at every backward step
and whatever the low-boundary column holds, the low entry k_i[0] of the
correction vector is exactly 0. -/
theorem C10_zero_low_correction (dt r q sigma : ℚ) (M : ℕ) (hM : 2 ≤ M) :
    compute_a dt r q sigma 0 = 0 ∧ a_explicit dt r q sigma 0 = 0 ∧
    ∀ rowNext : ℕ → ℚ,
      k_implicit M (compute_a dt r q sigma) (compute_c dt r q sigma) rowNext 0 = 0 ∧
      k_explicit M (a_explicit dt r q sigma) (c_explicit dt r q sigma) rowNext 0 = 0 := by
  have ha : compute_a dt r q sigma 0 = 0 := by simp [compute_a]
  have hae : a_explicit dt r q sigma 0 = 0 := by simp [a_explicit]
  refine ⟨ha, hae, fun rowNext => ?_⟩
  have h0 : (0 : ℕ) ≠ M - 1 := by omega
  constructor
  · simp [k_implicit, h0, ha]
  · simp [k_explicit, h0, hae]

/-- Witness for C10 at dt = 1, r = 0, q = 0, sigma = 1, M = 2. -/
theorem C10_zero_low_correction_witness :
    (2 : ℕ) ≤ 2 ∧ compute_a 1 0 0 1 0 = 0 :=
  ⟨by decide, (C10_zero_low_correction 1 0 0 1 2 (by decide)).1⟩

end FDM

